import Mathlib

/-!
Verification of the cross-modal retrieval scripts
(`src/evaluate_text_to_image_methods.py` and
`src/task_Resnet_BERT_text_to_Image.py`) by shallow embedding.

Pure fragments of the Python code are translated into executable Lean
definitions; numpy arrays are modelled by their shapes or by lists of
rows, Python dicts by insertion-ordered association lists, the file
system by the list of paths that exist.  Repository modules that are
imported by the scripts but absent from the sources (`datasets`,
`models` / `models_v2`, `evaluation_metrics`, `train`, `losses`) are
modelled from the specification and marked as such in their doc
comments.
-/

namespace CrossModal

/-! ### Configuration constants of `evaluate_text_to_image_methods.main` -/

/-- `out_size = 4096` in `evaluate_text_to_image_methods.main`. -/
def out_size_eval : Nat := 4096

/-- `emb_size = 300` in `evaluate_text_to_image_methods.main`. -/
def emb_size_eval : Nat := 300

/-- `input_size = 1024` in `evaluate_text_to_image_methods.main`. -/
def input_size_eval : Nat := 1024

/-- `num_samples = 1000` in `evaluate_text_to_image_methods.main`
("Number of samples to evaluate"). -/
def num_samples_eval : Nat := 1000

/-- `k = 5` in `evaluate_text_to_image_methods.main`
("Number of nearest neighbors"). -/
def knn_k : Nat := 5

/-! ### Ground-truth derivation in `evaluate_text_to_image_methods.main`

The test annotation `test.json` is a list of items, each carrying a
`filename` and a list of `sentences`; the script keeps only the fields
it reads (`filename`, and `sentence['raw']` for each sentence, which we
keep as the sentence string itself). -/

/-- One item of the `test.json` annotation, restricted to the fields the
script reads. -/
structure AnnItem where
  filename : String
  sentences : List String
deriving DecidableEq, Repr

/-- `data = data[:num_samples]` in `main`. -/
def evalData (allData : List AnnItem) : List AnnItem :=
  allData.take num_samples_eval

/-- Insertion into a Python dict modelled as an insertion-ordered
association list: an existing key keeps its position and gets the new
value, a new key is appended. -/
def dictInsert (d : List (String × List String)) (key : String)
    (v : List String) : List (String × List String) :=
  if d.any (fun p => p.1 = key) then
    d.map (fun p => if p.1 = key then (p.1, v) else p)
  else d ++ [(key, v)]

/-- `gt`: the loop `for item in data: gt[item['filename']] = [x['raw'] for
x in item['sentences']]`. -/
def buildGt (data : List AnnItem) : List (String × List String) :=
  data.foldl (fun acc it => dictInsert acc it.filename it.sentences) []

/-- `dict_sentences`: its keys are the consecutive values of `count`
(0, 1, 2, ...), each fresh, so the dict is faithfully a list indexed by
position; the inner loop appends every sentence of every item in
order. -/
def dict_sentences (data : List AnnItem) : List String :=
  data.foldl (fun acc it => acc ++ it.sentences) []

/-- `image_labels = [i for i in range(1, len(data) + 1)]`. -/
def image_labels (n : Nat) : List Nat :=
  (List.range n).map (fun i => i + 1)

/-- `text_labels = [j for j in range(1, len(data) + 1) for i in
range(5)]`: each label `j` repeated 5 times. -/
def text_labels (n : Nat) : List Nat :=
  (List.range n).flatMap (fun j => List.replicate 5 (j + 1))

/-- `t_labels = [[i] for i in text_labels]`. -/
def t_labels (n : Nat) : List (List Nat) :=
  (text_labels n).map (fun i => [i])

/-- `list(gt)`: the keys of the ground-truth dict in insertion order. -/
def gtKeys (data : List AnnItem) : List String :=
  (buildGt data).map Prod.fst

/-! ### Helper lemmas about the ground-truth derivation -/

theorem image_labels_length (n : Nat) : (image_labels n).length = n := by
  simp [image_labels]

theorem image_labels_getElem (n i : Nat) (hi : i < n) :
    (image_labels n)[i]? = some (i + 1) := by
  simp [image_labels, List.getElem?_map, List.getElem?_range, hi]

theorem text_labels_eq_map (n : Nat) :
    text_labels n = (List.range (5 * n)).map (fun m => m / 5 + 1) := by
  induction n with
  | zero => simp [text_labels]
  | succ n ih =>
    have h5 : 5 * (n + 1) = 5 * n + 5 := by ring
    rw [text_labels, List.range_succ, List.flatMap_append, ← text_labels, ih,
      h5, List.range_add, List.map_append]
    congr 1
    apply List.ext_getElem
    · simp
    · intro i h1 h2
      have hi : i < 5 := by simpa using h1
      have hdiv : (5 * n + i) / 5 = n := by omega
      simp only [List.getElem_map, List.getElem_range, hdiv]
      have : ([n].flatMap fun j => List.replicate 5 (j + 1))
          = List.replicate 5 (n + 1) := by simp
      rw [List.getElem_of_eq this, List.getElem_replicate]

theorem text_labels_length (n : Nat) : (text_labels n).length = 5 * n := by
  rw [text_labels_eq_map]; simp

theorem text_labels_getElem (n m : Nat) (hm : m < 5 * n) :
    (text_labels n)[m]? = some (m / 5 + 1) := by
  rw [text_labels_eq_map]
  simp [List.getElem?_map, List.getElem?_range, hm]

theorem dict_sentences_foldl (data : List AnnItem) :
    ∀ acc : List String,
      data.foldl (fun acc it => acc ++ it.sentences) acc
        = acc ++ data.flatMap (fun it => it.sentences) := by
  induction data with
  | nil => intro acc; simp
  | cons it rest ih =>
    intro acc
    simp [List.foldl_cons, ih, List.append_assoc]

theorem dict_sentences_eq_flatMap (data : List AnnItem) :
    dict_sentences data = data.flatMap (fun it => it.sentences) := by
  simpa [dict_sentences] using dict_sentences_foldl data []

theorem foldl_dictInsert_keys (data : List AnnItem) :
    ∀ acc : List (String × List String),
      (acc.map Prod.fst ++ data.map AnnItem.filename).Nodup →
      (data.foldl (fun a it => dictInsert a it.filename it.sentences)
          acc).map Prod.fst
        = acc.map Prod.fst ++ data.map AnnItem.filename := by
  induction data with
  | nil => intro acc _; simp
  | cons it rest ih =>
    intro acc hacc
    have hdisj := List.disjoint_of_nodup_append hacc
    have hnotmem : it.filename ∉ acc.map Prod.fst := by
      intro hmem
      exact absurd
        (by simp : it.filename ∈ (it :: rest).map AnnItem.filename)
        (hdisj hmem)
    have hany : (acc.any fun p => decide (p.1 = it.filename)) = false := by
      rw [List.any_eq_false]
      intro p hp
      simp only [decide_eq_true_eq]
      intro hpe
      exact hnotmem (hpe ▸ List.mem_map_of_mem Prod.fst hp)
    rw [List.foldl_cons,
      show dictInsert acc it.filename it.sentences
          = acc ++ [(it.filename, it.sentences)] from by
        simp [dictInsert, hany]]
    rw [ih (acc ++ [(it.filename, it.sentences)])
      (by simpa [List.append_assoc] using hacc)]
    simp [List.append_assoc]

/-- Keys of the ground-truth dict when the filenames are distinct: they
are exactly the filenames in file order. -/
theorem gtKeys_of_nodup (data : List AnnItem)
    (h : (data.map AnnItem.filename).Nodup) :
    gtKeys data = data.map AnnItem.filename := by
  simpa [gtKeys, buildGt] using
    foldl_dictInsert_keys data [] (by simpa using h)

theorem flatMap_sentences_length (l : List AnnItem)
    (h : ∀ it ∈ l, it.sentences.length = 5) :
    (l.flatMap (fun it => it.sentences)).length = 5 * l.length := by
  induction l with
  | nil => simp
  | cons it rest ih =>
    have h1 : it.sentences.length = 5 := h it (by simp)
    have h2 : ∀ x ∈ rest, x.sentences.length = 5 :=
      fun x hx => h x (by simp [hx])
    simp [List.flatMap_cons, h1, ih h2]
    ring

/-- C6: under the precondition that every kept annotation item has
exactly 5 sentences, the ground-truth derivation of the evaluation
script produces `len(data)` image labels equal to `1..len(data)`, a
sentence dictionary with exactly `5*len(data)` entries, and a text label
list of length `5*len(data)` whose entry `m` is `m / 5 + 1`. -/
theorem C6_ground_truth_derivation (allData : List AnnItem)
    (h : ∀ it ∈ evalData allData, it.sentences.length = 5) :
    (image_labels (evalData allData).length).length = (evalData allData).length
    ∧ (∀ i < (evalData allData).length,
        (image_labels (evalData allData).length)[i]? = some (i + 1))
    ∧ (dict_sentences (evalData allData)).length = 5 * (evalData allData).length
    ∧ (text_labels (evalData allData).length).length = 5 * (evalData allData).length
    ∧ ∀ m < 5 * (evalData allData).length,
        (text_labels (evalData allData).length)[m]? = some (m / 5 + 1) := by
  refine ⟨image_labels_length _, fun i hi => image_labels_getElem _ i hi, ?_,
    text_labels_length _, fun m hm => text_labels_getElem _ m hm⟩
  rw [dict_sentences_eq_flatMap]
  exact flatMap_sentences_length _ h

/-- Concrete annotation data used by witnesses. -/
def dataW : List AnnItem :=
  [⟨"im1.jpg", ["a", "b", "c", "d", "e"]⟩,
   ⟨"im2.jpg", ["f", "g", "h", "i", "j"]⟩]

theorem C6_ground_truth_derivation_witness :
    (∀ it ∈ evalData dataW, it.sentences.length = 5)
    ∧ ((image_labels (evalData dataW).length).length = (evalData dataW).length
      ∧ (∀ i < (evalData dataW).length,
          (image_labels (evalData dataW).length)[i]? = some (i + 1))
      ∧ (dict_sentences (evalData dataW)).length = 5 * (evalData dataW).length
      ∧ (text_labels (evalData dataW).length).length
          = 5 * (evalData dataW).length
      ∧ ∀ m < 5 * (evalData dataW).length,
          (text_labels (evalData dataW).length)[m]? = some (m / 5 + 1)) :=
  ⟨by decide, C6_ground_truth_derivation dataW (by decide)⟩

/-- C7: the evaluation script computes mAP@k over exactly the first 1000
test items taken in file order, and every ground-truth list passed to
`mapk` is the singleton holding the label of the image the caption
belongs to. -/
theorem C7_singleton_ground_truth (allData : List AnnItem) :
    num_samples_eval = 1000
    ∧ evalData allData = allData.take 1000
    ∧ (∀ l ∈ t_labels (evalData allData).length, l.length = 1)
    ∧ ∀ m < 5 * (evalData allData).length,
        (t_labels (evalData allData).length)[m]? = some [m / 5 + 1] := by
  refine ⟨rfl, rfl, ?_, ?_⟩
  · intro l hl
    rcases List.mem_map.mp hl with ⟨i, _, rfl⟩
    rfl
  · intro m hm
    have := text_labels_getElem (evalData allData).length m hm
    simp [t_labels, List.getElem?_map, this]

/-- C9: the index-to-label conversion and the filename lookup are
mutually inverse: `image_labels[i] = i + 1`, `(i + 1) - 1 = i`, and the
`(L-1)`-th key of the ground-truth dict for `L = i + 1` is the filename
of item `i` (filenames assumed distinct, as dict keys collapse
duplicates). -/
theorem C9_label_roundtrip (data : List AnnItem)
    (h : (data.map AnnItem.filename).Nodup) :
    ∀ i < data.length,
      (image_labels data.length)[i]? = some (i + 1)
      ∧ (i + 1) - 1 = i
      ∧ (gtKeys data)[(i + 1) - 1]? = (data.map AnnItem.filename)[i]? := by
  intro i hi
  refine ⟨image_labels_getElem _ i hi, rfl, ?_⟩
  rw [gtKeys_of_nodup data h]
  simp

theorem C9_label_roundtrip_witness :
    (dataW.map AnnItem.filename).Nodup
    ∧ ∀ i < dataW.length,
        (image_labels dataW.length)[i]? = some (i + 1)
        ∧ (i + 1) - 1 = i
        ∧ (gtKeys dataW)[(i + 1) - 1]? = (dataW.map AnnItem.filename)[i]? :=
  ⟨by decide, C9_label_roundtrip dataW (by decide)⟩

/-! ### Shape behaviour of `extract_embeddings`

`extract_embeddings` allocates `np.zeros((num_samples, 1024))` and
`np.zeros((num_samples * 5, 1024))`: the column width 1024 is hardcoded
in the source, independent of the `out_size` parameter. -/

/-- Column width of the arrays allocated by `np.zeros` in
`extract_embeddings` (the source hardcodes `1024`). -/
def allocWidth : Nat := 1024

/-- Modelled from the spec: the per-modality encoder heads of
`models_v2` (not under `src/`) project both modalities to the configured
output dimensionality, so `model.get_embedding_pair` returns embedding
rows of width `out_size`. -/
def embWidth (out_size : Nat) : Nat := out_size

/-- numpy assignment of a block of rows of width `srcW` into the rows of
an array of width `destW` succeeds only when the widths agree or the
source width broadcasts from 1. -/
def rowAssignOk (destW srcW : Nat) : Bool := srcW == destW || srcW == 1

/-- Column-shape behaviour of the loop of `extract_embeddings`: every
batch performs the slice assignments `image_embeddings[k:...] = im_emb`
and `text_embeddings[k:...] = text_emb`, whose right-hand sides have
width `embWidth out_size`, into arrays of width `allocWidth`; when every
assignment broadcasts, the two arrays are returned with their allocated
widths. -/
def extract_embeddings_widths (out_size : Nat) :
    List Nat → Except String (Nat × Nat)
  | [] => .ok (allocWidth, allocWidth)
  | _ :: rest =>
    if rowAssignOk allocWidth (embWidth out_size) then
      extract_embeddings_widths out_size rest
    else .error "could not broadcast input array"

/-- C1 fails on the code: with the configuration of `main`
(`out_size = 4096`) the arrays are allocated with hardcoded column width
1024, and the very first slice assignment of a batch of embeddings of
width 4096 fails to broadcast, so no run returns arrays whose second
dimension equals `out_size`. -/
theorem C1_embedding_width_bug :
    out_size_eval = 4096
    ∧ allocWidth = 1024
    ∧ extract_embeddings_widths out_size_eval [num_samples_eval]
        = .error "could not broadcast input array" :=
  ⟨rfl, rfl, rfl⟩

/-! ### Row placement in `extract_embeddings` -/

/-- Row-placement behaviour of the loop of `extract_embeddings`: each
batch of `b` image/text pairs is truncated by `[:num_samples]`, the
image rows fill the slice starting at the running offset `k` of length
`len(images)`, the text rows fill the slice starting at the same `k` of
length `5 * len(texts)`, and `k` then advances by `len(images)`.  The
result is the list of (start, length) intervals of the image writes and
of the text writes. -/
def extractWrites (num_samples : Nat) :
    List Nat → Nat → List (Nat × Nat) × List (Nat × Nat)
  | [], _ => ([], [])
  | b :: rest, k =>
    let nImg := min b num_samples
    let nTxt := min b num_samples
    let res := extractWrites num_samples rest (k + nImg)
    ((k, nImg) :: res.1, (k, 5 * nTxt) :: res.2)

/-- The interval set `ws` stays inside an array of `bound` rows and
writes each of its rows exactly once. -/
def coversOnce (ws : List (Nat × Nat)) (bound : Nat) : Prop :=
  (∀ w ∈ ws, w.1 + w.2 ≤ bound)
  ∧ ∀ r < bound, ws.countP (fun w => decide (w.1 ≤ r ∧ r < w.1 + w.2)) = 1

theorem coversOnce_single (n : Nat) : coversOnce [(0, n)] n := by
  constructor
  · intro w hw
    rw [List.mem_singleton] at hw
    subst hw
    simp
  · intro r hr
    simp [List.countP_cons]
    omega

/-- C10: when the dataloader yields a single batch holding the whole
dataset (of at least `num_samples` items, as `main` arranges with
`batch_size = test_dataset.length_dataset`), the image writes are
exactly the interval `[0, num_samples)` and the text writes exactly
`[0, 5 * num_samples)`: every row of either array is written exactly
once and all slice writes stay in bounds. -/
theorem C10_single_batch_rows (L ns : Nat) (hb : ns ≤ L) :
    extractWrites ns [L] 0 = ([(0, ns)], [(0, 5 * ns)])
    ∧ coversOnce [(0, ns)] ns
    ∧ coversOnce [(0, 5 * ns)] (5 * ns) := by
  exact ⟨by simp [extractWrites, Nat.min_eq_right hb],
    coversOnce_single ns, coversOnce_single (5 * ns)⟩

theorem C10_single_batch_rows_witness :
    2 ≤ 3
    ∧ (extractWrites 2 [3] 0 = ([(0, 2)], [(0, 10)])
      ∧ coversOnce [(0, 2)] 2
      ∧ coversOnce [(0, 10)] 10) :=
  ⟨by decide, C10_single_batch_rows 3 2 (by decide)⟩

/-! ### The flat L2 nearest-neighbor retrieval of `main`

`index = faiss.IndexFlatL2(d)`, `index.add(image_embeddings)`,
`D, I = index.search(text_embeddings, k)` with `k = 5`.  The flat index
performs exact brute-force L2 search, modelled here over exact rational
arithmetic: the database indices sorted by squared distance to the
query, keeping the first `k`. -/

/-- Squared L2 distance between two vectors. -/
def sqDist (a b : List ℚ) : ℚ :=
  ((a.zip b).map (fun p => (p.1 - p.2) ^ 2)).sum

/-- Exact search of a flat L2 index for one query. -/
def searchOne (db : List (List ℚ)) (q : List ℚ) (k : Nat) : List Nat :=
  (List.insertionSort
    (fun i j => sqDist (db.getD i []) q ≤ sqDist (db.getD j []) q)
    (List.range db.length)).take k

/-- `index.search`: one result row of `k` indices per query row. -/
def index_search (db : List (List ℚ)) (queries : List (List ℚ))
    (k : Nat) : List (List Nat) :=
  queries.map (fun q => searchOne db q k)

/-- The retrieval step of `main`: the index holds exactly the image
embeddings and is searched once with every text embedding at
`k = knn_k`. -/
def mainSearch (imageEmbeddings textEmbeddings : List (List ℚ)) :
    List (List Nat) :=
  index_search imageEmbeddings textEmbeddings knn_k

/-- C2: the evaluation entry point searches the flat L2 index built over
exactly the image embeddings once with every text embedding at the
fixed `k = 5`, and (whenever at least `k` images are indexed, as with
the 1000 evaluation images) every query returns exactly `k` indices,
each a valid 0-based position into the indexed image set. -/
theorem C2_flat_index_search (imgEmb txtEmb : List (List ℚ))
    (h : knn_k ≤ imgEmb.length) :
    knn_k = 5
    ∧ (mainSearch imgEmb txtEmb).length = txtEmb.length
    ∧ ∀ res ∈ mainSearch imgEmb txtEmb,
        res.length = knn_k ∧ ∀ i ∈ res, i < imgEmb.length := by
  refine ⟨rfl, by simp [mainSearch, index_search], ?_⟩
  intro res hres
  rcases List.mem_map.mp hres with ⟨q, _, rfl⟩
  constructor
  · simp only [searchOne, List.length_take, List.length_insertionSort,
      List.length_range]
    omega
  · intro i hi
    have hmem : i ∈ List.insertionSort
        (fun i j => sqDist (imgEmb.getD i []) q ≤ sqDist (imgEmb.getD j []) q)
        (List.range imgEmb.length) := List.mem_of_mem_take hi
    have : i ∈ List.range imgEmb.length :=
      (List.perm_insertionSort _ _).mem_iff.mp hmem
    exact List.mem_range.mp this

/-- Concrete database and query set used by the C2 witness. -/
def imgEmbW : List (List ℚ) := List.replicate 5 [0]

theorem C2_flat_index_search_witness :
    knn_k ≤ imgEmbW.length
    ∧ (knn_k = 5
      ∧ (mainSearch imgEmbW [[0]]).length = ([[(0 : ℚ)]] : List (List ℚ)).length
      ∧ ∀ res ∈ mainSearch imgEmbW [[0]],
          res.length = knn_k ∧ ∀ i ∈ res, i < imgEmbW.length) :=
  ⟨by decide, C2_flat_index_search imgEmbW [[0]] (by decide)⟩

/-! ### File accesses of the two scripts

The file system is modelled by the list of paths that exist.  Lacking
any `try`/`except` in either script, a failing load is an error value
that propagates to the end of the run (the library's native exception
aborting the process); the only guarded access is the checkpoint, read
strictly after a positive `path.exists` test. -/

structure FileSystem where
  files : List String

/-- `path.exists`. -/
def FileSystem.has (fs : FileSystem) (p : String) : Bool :=
  fs.files.contains p

/-- An unguarded library load: the native exception propagates when the
path does not exist. -/
def requireFile (fs : FileSystem) (p : String) : Except String Unit :=
  if fs.has p then .ok () else .error p

/-- Sequence of unguarded loads. -/
def requireAll (fs : FileSystem) : List String → Except String Unit
  | [] => .ok ()
  | p :: rest => (requireFile fs p).bind (fun _ => requireAll fs rest)

/-- Paths of `evaluate_text_to_image_methods.main`. -/
def TEST_IMG_EMB : String := "../../data/Flickr30k/test_FasterRCNN_features.pkl"

def TEST_TEXT_EMB_eval : String := "../../data/Flickr30k/test_fasttext_features.pkl"

def TEST_JSON : String := "../../data/Flickr30k/test.json"

def model_id_eval : String := "TextToImage_FasterRCNN_mean_textagg_out_size_4096"

def ckptPath_eval : String := "models/" ++ model_id_eval ++ ".pth"

/-- Paths of `task_Resnet_BERT_text_to_Image.main`. -/
def TRAIN_TEXT_EMB : String := "../../data/Flickr30k/train_bert_features.pkl"

def TEST_TEXT_EMB_train : String := "../../data/Flickr30k/val_bert_features.pkl"

def model_id_train : String := "TextToImage_Resnet_BERT_textagg_out_size_1000"

def ckptPath_train : String := "./models/" ++ model_id_train ++ ".pth"

/-- File accesses of the evaluation script in program order: the dataset
constructor loads the two feature pickles (Modelled from the spec: the
`datasets` module is not under `src/`; a missing pickle raises), the
checkpoint is loaded only when `path.exists` holds, the annotation JSON
is opened, and visualization reads image files. -/
def runEvalScript (fs : FileSystem) (imagePaths : List String) :
    Except String Unit :=
  (requireFile fs TEST_IMG_EMB).bind (fun _ =>
  (requireFile fs TEST_TEXT_EMB_eval).bind (fun _ =>
  (if fs.has ckptPath_eval then requireFile fs ckptPath_eval
    else .ok ()).bind (fun _ =>
  (requireFile fs TEST_JSON).bind (fun _ =>
  requireAll fs imagePaths))))

/-- File accesses of the training script in program order: the two
dataset constructors load the text-feature pickles (Modelled from the
spec: the `datasets` module is not under `src/`), the checkpoint is
loaded only when `path.exists` holds, and the training loop reads raw
image files. -/
def runTrainScript (fs : FileSystem) (imagePaths : List String) :
    Except String Unit :=
  (requireFile fs TRAIN_TEXT_EMB).bind (fun _ =>
  (requireFile fs TEST_TEXT_EMB_train).bind (fun _ =>
  (if fs.has ckptPath_train then requireFile fs ckptPath_train
    else .ok ()).bind (fun _ =>
  requireAll fs imagePaths)))

/-- A file system holding every input of both scripts except the model
checkpoints. -/
def fsNoCkpt : FileSystem :=
  ⟨[TEST_IMG_EMB, TEST_TEXT_EMB_eval, TEST_JSON, TRAIN_TEXT_EMB,
    TEST_TEXT_EMB_train]⟩

/-- C3 fails on the code: a missing model checkpoint is detected by the
`path.exists` guard and both scripts continue without it, so there IS a
code path on which a missing file is detected and execution continues. -/
theorem C3_missing_checkpoint_continues :
    fsNoCkpt.has ckptPath_eval = false
    ∧ fsNoCkpt.has ckptPath_train = false
    ∧ runEvalScript fsNoCkpt [] = .ok ()
    ∧ runTrainScript fsNoCkpt [] = .ok () :=
  ⟨by decide, by decide, rfl, rfl⟩

theorem requireAll_ok (fs : FileSystem) (l : List String) :
    requireAll fs l = .ok () ↔ ∀ p ∈ l, fs.has p = true := by
  induction l with
  | nil => simp [requireAll]
  | cons p rest ih =>
    by_cases hp : fs.has p = true
    · simp [requireAll, requireFile, hp, Except.bind, ih]
    · simp [requireAll, requireFile, hp, Except.bind]

/-- C3 amended: each unguarded input load (feature pickle, annotation
JSON, image file) aborts the run with the library's native error when
its file is missing — the run succeeds exactly when all of them exist —
while the model checkpoint alone is guarded by `path.exists` and its
absence never aborts either script. -/
theorem C3_missing_file_aborts (fs : FileSystem) (imagePaths : List String) :
    (runEvalScript fs imagePaths = .ok ()
      ↔ (fs.has TEST_IMG_EMB = true ∧ fs.has TEST_TEXT_EMB_eval = true
          ∧ fs.has TEST_JSON = true ∧ ∀ p ∈ imagePaths, fs.has p = true))
    ∧ (runTrainScript fs imagePaths = .ok ()
      ↔ (fs.has TRAIN_TEXT_EMB = true ∧ fs.has TEST_TEXT_EMB_train = true
          ∧ ∀ p ∈ imagePaths, fs.has p = true)) := by
  constructor
  · by_cases h1 : fs.has TEST_IMG_EMB = true <;>
      by_cases h2 : fs.has TEST_TEXT_EMB_eval = true <;>
      by_cases h3 : fs.has TEST_JSON = true <;>
      cases hc : fs.has ckptPath_eval <;>
      simp [runEvalScript, requireFile, h1, h2, h3, hc, Except.bind,
        requireAll_ok]
  · by_cases h1 : fs.has TRAIN_TEXT_EMB = true <;>
      by_cases h2 : fs.has TEST_TEXT_EMB_train = true <;>
      cases hc : fs.has ckptPath_train <;>
      simp [runTrainScript, requireFile, h1, h2, hc, Except.bind,
        requireAll_ok]

/-! ### Checkpoint restore in the training script -/

/-- The dictionary stored in `./models/<model_id>.pth`. -/
structure Checkpoint where
  model_state_dict : Nat
  optimizer : Nat
  epoch : Nat
deriving DecidableEq, Repr

/-- The checkpoint-restore block of the training script:
`start_epoch = 0`; when a checkpoint file exists at the fixed path, the
model state, the optimizer state and the epoch counter are all loaded
from it.  `ckpt` is the content of the file at `ckptPath_train`, `none`
when no such file exists; the result triple is (model state, optimizer
state, start_epoch). -/
def trainRestore (ckpt : Option Checkpoint) (freshModel freshOpt : Nat) :
    Nat × Nat × Nat :=
  match ckpt with
  | some c => (c.model_state_dict, c.optimizer, c.epoch)
  | none => (freshModel, freshOpt, 0)

/-- C4: if a checkpoint exists at `./models/<model_id>.pth` then model,
optimizer and epoch counter are all restored from it and training starts
from the stored epoch; otherwise the freshly constructed states are kept
and `start_epoch` is 0. -/
theorem C4_checkpoint_restore (ckpt : Option Checkpoint)
    (freshModel freshOpt : Nat) :
    ckptPath_train
        = "./models/TextToImage_Resnet_BERT_textagg_out_size_1000.pth"
    ∧ (∀ c, ckpt = some c →
        trainRestore ckpt freshModel freshOpt
          = (c.model_state_dict, c.optimizer, c.epoch))
    ∧ (ckpt = none →
        trainRestore ckpt freshModel freshOpt = (freshModel, freshOpt, 0)) := by
  refine ⟨rfl, ?_, ?_⟩
  · intro c hc
    subst hc
    rfl
  · intro hc
    subst hc
    rfl

theorem C4_checkpoint_restore_witness :
    trainRestore (some ⟨1, 2, 3⟩) 7 8 = (1, 2, 3)
    ∧ trainRestore none 7 8 = (7, 8, 0) :=
  ⟨(C4_checkpoint_restore (some ⟨1, 2, 3⟩) 7 8).2.1 ⟨1, 2, 3⟩ rfl,
   (C4_checkpoint_restore none 7 8).2.2 rfl⟩

/-! ### Triplet sampling invariant -/

/-- Modelled from the spec: an item of the triplet dataset
(`TripletFlickr30kTextToImgEndToEnd`, not under `src/`) carries a
feature and the semantic label of its image-caption pairing. -/
structure LabeledItem where
  feature : Nat
  label : Nat
deriving DecidableEq, Repr

/-- Modelled from the spec: the sampling logic inside the
training-framework dataset abstraction draws an anchor by index, a
positive among the items whose label equals the anchor's, and a negative
among the items whose label differs; `pi` and `ni` stand for the random
draws into the two candidate pools.  `none` when a draw is out of
range. -/
def sampleTriplet (ds : List LabeledItem) (ai pi ni : Nat) :
    Option (LabeledItem × LabeledItem × LabeledItem) :=
  match ds[ai]? with
  | none => none
  | some anchor =>
    match (ds.filter (fun x => x.label = anchor.label))[pi]?,
          (ds.filter (fun x => x.label ≠ anchor.label))[ni]? with
    | some pos, some neg => some (anchor, pos, neg)
    | _, _ => none

/-- C8: every triplet produced by the training dataset abstraction has
anchor and positive with equal labels and anchor and negative with
unequal labels. -/
theorem C8_triplet_invariant (ds : List LabeledItem) (ai pi ni : Nat)
    (a p n : LabeledItem)
    (h : sampleTriplet ds ai pi ni = some (a, p, n)) :
    a.label = p.label ∧ a.label ≠ n.label := by
  unfold sampleTriplet at h
  cases hA : ds[ai]? with
  | none => rw [hA] at h; exact absurd h (by simp)
  | some anchor =>
    rw [hA] at h
    dsimp only at h
    cases hP : (ds.filter (fun x => x.label = anchor.label))[pi]? with
    | none => rw [hP] at h; dsimp only at h; exact absurd h (by simp)
    | some pos =>
      cases hN : (ds.filter (fun x => x.label ≠ anchor.label))[ni]? with
      | none => rw [hP, hN] at h; dsimp only at h; exact absurd h (by simp)
      | some neg =>
        rw [hP, hN] at h
        dsimp only at h
        have heq : anchor = a ∧ pos = p ∧ neg = n := by
          simpa using h
        obtain ⟨rfl, rfl, rfl⟩ := heq
        have hpos := List.of_mem_filter (List.getElem?_mem hP)
        have hneg := List.of_mem_filter (List.getElem?_mem hN)
        simp only [decide_eq_true_eq] at hpos hneg
        exact ⟨hpos.symm, fun hcon => hneg hcon.symm⟩

/-- Concrete triplet dataset used by the C8 witness. -/
def dsW : List LabeledItem := [⟨0, 1⟩, ⟨1, 1⟩, ⟨2, 2⟩]

theorem C8_triplet_invariant_witness :
    (LabeledItem.mk 0 1).label = (LabeledItem.mk 1 1).label
    ∧ (LabeledItem.mk 0 1).label ≠ (LabeledItem.mk 2 2).label :=
  C8_triplet_invariant dsW 0 1 0 ⟨0, 1⟩ ⟨1, 1⟩ ⟨2, 2⟩ (by decide)

/-! ### mAP@k

`evaluation_metrics.mapk` is repository code not under `src/`. -/

/-- Modelled from the spec: the glossary defines mAP@k as "mean average
precision computed over the top-k retrieved results per query".
`apkScore` is the numerator of the average precision of one query:
walking the ranked predictions with running rank `i` and hit counter
`hits`, a prediction that is relevant (in `actual`) and not yet seen
contributes precision `(hits+1)/(i+1)` at its rank. -/
def apkScore (actual : List Nat) : List Nat → List Nat → Nat → Nat → ℚ
  | _, [], _, _ => 0
  | seen, p :: rest, i, hits =>
    if p ∈ actual ∧ p ∉ seen then
      ((hits : ℚ) + 1) / ((i : ℚ) + 1)
        + apkScore actual (seen ++ [p]) rest (i + 1) (hits + 1)
    else apkScore actual (seen ++ [p]) rest (i + 1) hits

/-- Modelled from the spec: average precision at `k` of one query — the
score over the first `k` predictions, normalized by the smaller of `k`
and the number of relevant items; 0 for an empty ground-truth list. -/
def apk (actual predicted : List Nat) (k : Nat) : ℚ :=
  if actual = [] then 0
  else apkScore actual [] (predicted.take k) 0 0
    / ((min actual.length k : Nat) : ℚ)

/-- Modelled from the spec: `mapk` is the mean of the per-query average
precisions over the zipped ground-truth/prediction pairs (the mean of an
empty list is taken to be 0). -/
def mapk (actual predicted : List (List Nat)) (k : Nat) : ℚ :=
  ((actual.zip predicted).map (fun p => apk p.1 p.2 k)).sum
    / (((actual.zip predicted).length : Nat) : ℚ)

theorem apkScore_nonneg (actual : List Nat) :
    ∀ (preds seen : List Nat) (i hits : Nat),
      0 ≤ apkScore actual seen preds i hits := by
  intro preds
  induction preds with
  | nil => intro seen i hits; simp [apkScore]
  | cons p rest ih =>
    intro seen i hits
    by_cases hc : p ∈ actual ∧ p ∉ seen
    · simp only [apkScore, if_pos hc]
      have h1 : (0 : ℚ) ≤ ((hits : ℚ) + 1) / ((i : ℚ) + 1) := by positivity
      have h2 := ih (seen ++ [p]) (i + 1) (hits + 1)
      linarith
    · simp only [apkScore, if_neg hc]
      exact ih (seen ++ [p]) (i + 1) hits

theorem apkScore_le_length (actual : List Nat) :
    ∀ (preds seen : List Nat) (i hits : Nat), hits ≤ i →
      apkScore actual seen preds i hits ≤ (preds.length : ℚ) := by
  intro preds
  induction preds with
  | nil => intro seen i hits _; simp [apkScore]
  | cons p rest ih =>
    intro seen i hits hhi
    by_cases hc : p ∈ actual ∧ p ∉ seen
    · simp only [apkScore, if_pos hc, List.length_cons]
      push_cast
      have h1 : ((hits : ℚ) + 1) / ((i : ℚ) + 1) ≤ 1 := by
        rw [div_le_one (by positivity)]
        exact_mod_cast Nat.succ_le_succ hhi
      have h2 := ih (seen ++ [p]) (i + 1) (hits + 1) (Nat.succ_le_succ hhi)
      linarith
    · simp only [apkScore, if_neg hc, List.length_cons]
      push_cast
      have h2 := ih (seen ++ [p]) (i + 1) hits (Nat.le_succ_of_le hhi)
      have h3 : (0 : ℚ) ≤ 1 := by norm_num
      linarith

theorem apkScore_le_card (actual : List Nat) :
    ∀ (preds seen : List Nat) (i hits : Nat), hits ≤ i →
      apkScore actual seen preds i hits
        ≤ ((actual.toFinset \ seen.toFinset).card : ℚ) := by
  intro preds
  induction preds with
  | nil => intro seen i hits _; simp [apkScore]
  | cons p rest ih =>
    intro seen i hits hhi
    by_cases hc : p ∈ actual ∧ p ∉ seen
    · simp only [apkScore, if_pos hc]
      have hpmem : p ∈ actual.toFinset \ seen.toFinset := by
        simp [Finset.mem_sdiff, List.mem_toFinset, hc.1, hc.2]
      have hcard1 : 1 ≤ (actual.toFinset \ seen.toFinset).card :=
        Finset.card_pos.mpr ⟨p, hpmem⟩
      have hdiff : actual.toFinset \ (seen ++ [p]).toFinset
          = (actual.toFinset \ seen.toFinset).erase p := by
        ext x
        simp only [Finset.mem_sdiff, Finset.mem_erase, List.toFinset_append,
          Finset.mem_union, List.toFinset_cons, List.toFinset_nil,
          insert_emptyc_eq, Finset.mem_insert, Finset.mem_singleton]
        tauto
      have hterm : ((hits : ℚ) + 1) / ((i : ℚ) + 1) ≤ 1 := by
        rw [div_le_one (by positivity)]
        exact_mod_cast Nat.succ_le_succ hhi
      have h2 := ih (seen ++ [p]) (i + 1) (hits + 1) (Nat.succ_le_succ hhi)
      rw [hdiff, Finset.card_erase_of_mem hpmem] at h2
      rw [Nat.cast_sub hcard1] at h2
      push_cast at h2
      linarith
    · simp only [apkScore, if_neg hc]
      have hsub : actual.toFinset \ (seen ++ [p]).toFinset
          ⊆ actual.toFinset \ seen.toFinset := by
        intro x hx
        simp only [Finset.mem_sdiff, List.toFinset_append,
          Finset.mem_union] at hx ⊢
        tauto
      have h2 := ih (seen ++ [p]) (i + 1) hits (Nat.le_succ_of_le hhi)
      have h3 : ((actual.toFinset \ (seen ++ [p]).toFinset).card : ℚ)
          ≤ ((actual.toFinset \ seen.toFinset).card : ℚ) := by
        exact_mod_cast Finset.card_le_card hsub
      linarith

theorem apk_nonneg (actual predicted : List Nat) (k : Nat) :
    0 ≤ apk actual predicted k := by
  by_cases ha : actual = []
  · simp [apk, ha]
  · rw [apk, if_neg ha]
    exact div_nonneg (apkScore_nonneg actual (predicted.take k) [] 0 0)
      (by positivity)

theorem apk_le_one (actual predicted : List Nat) (k : Nat) :
    apk actual predicted k ≤ 1 := by
  by_cases ha : actual = []
  · simp [apk, ha]
  · rw [apk, if_neg ha]
    rcases Nat.eq_zero_or_pos (min actual.length k) with hd | hd
    · have hk : k = 0 := by
        rcases Nat.min_eq_zero_iff.mp hd with h1 | h1
        · exact absurd (List.length_eq_zero.mp h1) ha
        · exact h1
      subst hk
      simp [List.take_zero, apkScore]
    · rw [div_le_one (by exact_mod_cast hd)]
      have hb1 := apkScore_le_length actual (predicted.take k) [] 0 0 le_rfl
      have hb2 := apkScore_le_card actual (predicted.take k) [] 0 0 le_rfl
      simp only [List.toFinset_nil, Finset.sdiff_empty] at hb2
      rcases min_choice actual.length k with hm | hm <;> rw [hm]
      · have hcle : (actual.toFinset.card : ℚ) ≤ (actual.length : ℚ) := by
          exact_mod_cast List.toFinset_card_le actual
        linarith
      · have hlen : ((predicted.take k).length : ℚ) ≤ (k : ℚ) := by
          exact_mod_cast (List.length_take k predicted) ▸ min_le_left k _
        linarith

theorem list_sum_le_length (l : List ℚ) (h : ∀ x ∈ l, x ≤ 1) :
    l.sum ≤ (l.length : ℚ) := by
  induction l with
  | nil => simp
  | cons x rest ih =>
    simp only [List.sum_cons, List.length_cons]
    push_cast
    have h1 := h x (by simp)
    have h2 := ih (fun y hy => h y (by simp [hy]))
    linarith

/-- C5: for every list of ground-truth label lists and every list of
predicted label lists of matching length, the value of `mapk` (and
hence the mAP@k printed by the evaluation script) lies in [0, 1]. -/
theorem C5_mapk_bounded (actual predicted : List (List Nat)) (k : Nat)
    (h : actual.length = predicted.length) :
    0 ≤ mapk actual predicted k ∧ mapk actual predicted k ≤ 1 := by
  unfold mapk
  have hnonneg : ∀ x ∈ (actual.zip predicted).map (fun p => apk p.1 p.2 k),
      0 ≤ x := by
    intro x hx
    rcases List.mem_map.mp hx with ⟨p, _, rfl⟩
    exact apk_nonneg p.1 p.2 k
  have hle : ∀ x ∈ (actual.zip predicted).map (fun p => apk p.1 p.2 k),
      x ≤ 1 := by
    intro x hx
    rcases List.mem_map.mp hx with ⟨p, _, rfl⟩
    exact apk_le_one p.1 p.2 k
  have hsum0 := List.sum_nonneg hnonneg
  have hsum1 := list_sum_le_length _ hle
  rw [List.length_map] at hsum1
  rcases Nat.eq_zero_or_pos (actual.zip predicted).length with h0 | h0
  · rw [List.length_eq_zero.mp h0]
    simp
  · constructor
    · exact div_nonneg hsum0 (by positivity)
    · rw [div_le_one (by exact_mod_cast h0)]
      exact hsum1

theorem C5_mapk_bounded_witness :
    ([[1]] : List (List Nat)).length = ([[2]] : List (List Nat)).length
    ∧ (0 ≤ mapk [[1]] [[2]] 5 ∧ mapk [[1]] [[2]] 5 ≤ 1) :=
  ⟨rfl, C5_mapk_bounded [[1]] [[2]] 5 rfl⟩

end CrossModal
